import Mathlib

/-!
Verification of the availability erasure-coding layer
(`src/erasure-coding/src/lib.rs`).

Bytes are modelled as natural numbers; byte buffers as `List Nat`.  The
external collaborators of the crate — the `reed_solomon_erasure` codec, the
SCALE payload serializer and the substrate trie engine — are not part of the
repository source; following the specification they are modelled abstractly
(`RSCodec`, decoder parameters) or concretely from the spec's interface
contract (the trie).  The module `wrapped_shard` is part of the repository but
its file is not present under `src/`; it is modelled from the spec as well.
-/

/-- Errors in erasure coding, mirroring `enum Error` of the source. -/
inductive Error where
  | TooManyValidators
  | EmptyValidators
  | WrongValidatorCount
  | NotEnoughChunks
  | TooManyChunks
  | NonUniformChunks
  | UnevenLength
  | ChunkIndexOutOfBounds (i n : Nat)
  | BadPayload
  | InvalidBranchProof
  | BranchOutOfBounds
deriving DecidableEq, Repr

/-- Errors of the external `reed_solomon_erasure` codec that are reachable at
the `reconstruct` call site (the source maps exactly these three; the
remaining crate variants are documented unreachable there). -/
inductive RsError where
  | TooFewShardsPresent
  | InvalidShardFlags
  | TooManyShards
deriving DecidableEq, Repr

/-- Mirror of `struct CodeParams`. -/
structure CodeParams where
  data_shards : Nat
  parity_shards : Nat
deriving DecidableEq, Repr

/-- Mirror of `CodeParams::shard_len`:
`(base_len / self.data_shards) + (base_len % self.data_shards)`. -/
def CodeParams.shard_len (p : CodeParams) (base_len : Nat) : Nat :=
  base_len / p.data_shards + base_len % p.data_shards

/-- Mirror of `fn code_params`: reject `n > 2^16` and `n == 0`, else
`data_shards = (n-1)/3 + 1` and `parity_shards = (n - (n-1)/3) - 1`. -/
def code_params (n_validators : Nat) : Except Error CodeParams :=
  if 65536 < n_validators then .error Error.TooManyValidators
  else if n_validators = 0 then .error Error.EmptyValidators
  else
    let n_faulty := (n_validators - 1) / 3
    let n_good := n_validators - n_faulty
    .ok ⟨n_faulty + 1, n_good - 1⟩

/-- The next even number at or above `x` (spec §3: shard length is `s + 4`
"rounded up to the next even number if `s+4` is odd"). -/
def roundUpEven (x : Nat) : Nat :=
  if x % 2 = 0 then x else x + 1

/-- Modelled from the spec: `WrappedShard::new` from the module
`wrapped_shard`, whose file is not under `src/`.  A shard wraps a byte buffer
whose only exported invariant is an even length (spec §4.A); a buffer of odd
length is rounded up to the next even length with zero padding (spec §3:
"rounded up to the next even number if `s+4` is odd"). -/
def wrappedShardNew (data : List Nat) : List Nat :=
  if data.length % 2 = 0 then data else data ++ [0]

/-- The little-endian 4-byte SCALE encoding of a `u32`, after the source's
`len as u32` cast (hence the reductions modulo 256). -/
def lenEncU32 (x : Nat) : List Nat :=
  [x % 256, x / 256 % 256, x / 65536 % 256, x / 16777216 % 256]

/-- Little-endian read of the first four bytes, mirroring `u32::decode`. -/
def decodeU32 (bytes : List Nat) : Nat :=
  bytes.getD 0 0 + 256 * bytes.getD 1 0 + 65536 * bytes.getD 2 0 +
    16777216 * bytes.getD 3 0

/-- Modelled from the spec: the interface of the external
`reed_solomon_erasure` GF(2^16) codec (spec §4.D).  `rsEncode d p shards`
models in-place `encode` on the full `d + p` shard vector, returning the
resulting codeword; `rsReconstruct d p holes` models `reconstruct` on a vector
of present/absent positions, returning the completed shard vector. -/
structure RSCodec where
  rsEncode : Nat → Nat → List (List Nat) → List (List Nat)
  rsReconstruct : Nat → Nat → List (Option (List Nat)) →
    Except RsError (List (List Nat))

/-- Number of present positions in a shard vector with holes. -/
def presentCount (holes : List (Option (List Nat))) : Nat :=
  (holes.filterMap id).length

/-- `holes` is obtained from the codeword `cw` by erasing some positions. -/
def ErasureOf (holes : List (Option (List Nat))) (cw : List (List Nat)) : Prop :=
  holes.length = cw.length ∧
    ∀ i, i < holes.length →
      holes.getD i none = none ∨ holes.getD i none = some (cw.getD i [])

/-- Modelled from the spec (§4.D): in-place `encode` keeps the vector length
and leaves the `d` data shards untouched. -/
def EncodeKeepsData (c : RSCodec) : Prop :=
  ∀ d p shards, shards.length = d + p → 0 < d →
    (c.rsEncode d p shards).length = d + p ∧
      (c.rsEncode d p shards).take d = shards.take d

/-- Modelled from the spec (§4.D): in-place `encode` preserves the uniform
shard length. -/
def EncodeUniformLen (c : RSCodec) : Prop :=
  ∀ d p shards L, shards.length = d + p → 0 < d → L % 2 = 0 → 0 < L →
    (∀ s ∈ shards, s.length = L) →
    ∀ s ∈ c.rsEncode d p shards, s.length = L

/-- Modelled from the spec (§4.D): the erasure-recovery postcondition at the
parameters `(d, p)` — any `≥ d` present positions of a codeword determine the
whole codeword. -/
def MdsAt (c : RSCodec) (d p : Nat) : Prop :=
  ∀ shards L holes, shards.length = d + p → 0 < d → L % 2 = 0 → 0 < L →
    (∀ s ∈ shards, s.length = L) →
    ErasureOf holes (c.rsEncode d p shards) →
    d ≤ presentCount holes →
    c.rsReconstruct d p holes = .ok (c.rsEncode d p shards)

/-- Modelled from the spec (§4.D): `reconstruct` fails with
`TooFewShardsPresent` when fewer than `d` positions are present. -/
def ReconstructTooFew (c : RSCodec) : Prop :=
  ∀ d p holes, presentCount holes < d →
    c.rsReconstruct d p holes = .error RsError.TooFewShardsPresent

/-- Modelled from the spec (§4.D): when every position is present there is
nothing to recover and `reconstruct` returns the vector unchanged. -/
def ReconstructAllPresent (c : RSCodec) : Prop :=
  ∀ d p holes, holes.length = d + p → 0 < d → (∀ h ∈ holes, h.isSome) →
    c.rsReconstruct d p holes = .ok (holes.map (fun o => o.getD []))

/-- A concrete executable instance of the codec interface, adequate for the
degenerate parameter shapes used by the witnesses: it satisfies the erasure
contract when `data_shards = 1` (where the code is a repetition code, spec
§9 "Parity share of zero"), the too-few-shards failure for all parameters,
and the all-present pass-through for all parameters. -/
def modelCodec : RSCodec where
  rsEncode d _p shards :=
    shards.take d ++ (shards.drop d).map (fun _ => shards.headD [])
  rsReconstruct d _p holes :=
    if (holes.filterMap id).length < d then .error RsError.TooFewShardsPresent
    else if holes.all (fun o => o.isSome) then
      .ok (holes.map (fun o => o.getD []))
    else
      .ok (List.replicate holes.length ((holes.filterMap id).headD []))

/-- The loop body of `CodeParams::make_shards_for`: a blank shard of data
capacity `cap` (the blank buffer length minus the 4 prefix bytes) receives a
payload slice, truncated to `min piece.length cap` as in the source's
`::std::cmp::min`, prefixed with that length as a `u32`, and zero-padded to
the full capacity. -/
def frameShard (cap : Nat) (piece : List Nat) : List Nat :=
  lenEncU32 (min piece.length cap) ++ piece.take (min piece.length cap) ++
    List.replicate (cap - min piece.length cap) 0

/-- Mirror of `CodeParams::make_shards_for`.  The shard at position `j` of the
`data_shards + parity_shards` blank shards receives (via `frameShard`) the
`j`-th `shard_len`-sized slice of the payload; shards beyond the payload (in
particular all parity shards) stay blank.  The blank buffer is the wrapped
(even-length) all-zero buffer of length `shard_len + 4`. -/
def CodeParams.make_shards_for (params : CodeParams) (payload : List Nat) :
    List (List Nat) :=
  let sl := params.shard_len payload.length
  let blank := wrappedShardNew (List.replicate (sl + 4) 0)
  (List.range (params.data_shards + params.parity_shards)).map (fun j =>
    if j * sl < payload.length then
      frameShard (blank.length - 4) ((payload.drop (j * sl)).take sl)
    else blank)

/-- Mirror of `pub fn obtain_chunks`, over the already-serialized payload (the
serializer is an external collaborator, spec §1/§6) and an abstract codec. -/
def obtain_chunks (c : RSCodec) (n_validators : Nat) (payload : List Nat) :
    Except Error (List (List Nat)) :=
  match code_params n_validators with
  | .error e => .error e
  | .ok params =>
    if payload.length = 0 then .error Error.BadPayload
    else
      .ok (c.rsEncode params.data_shards params.parity_shards
        (params.make_shards_for payload))

/-- The per-chunk validation loop of `reconstruct`: index bound, then the
even-length check on the remembered first length, then the uniformity /
non-empty check, then storing the wrapped chunk at its index. -/
def fillShards (n : Nat) :
    List (Option (List Nat)) → Option Nat → List (List Nat × Nat) →
      Except Error (List (Option (List Nat)))
  | shards, _, [] => .ok shards
  | shards, slOpt, (chunk_data, chunk_idx) :: rest =>
    if n ≤ chunk_idx then .error (Error.ChunkIndexOutOfBounds chunk_idx n)
    else if slOpt.getD chunk_data.length % 2 ≠ 0 then .error Error.UnevenLength
    else if slOpt.getD chunk_data.length ≠ chunk_data.length ∨
        slOpt.getD chunk_data.length = 0 then .error Error.NonUniformChunks
    else
      fillShards n (shards.set chunk_idx (some (wrappedShardNew chunk_data)))
        (some (slOpt.getD chunk_data.length)) rest

/-- The unframing step applied to each recovered data shard: read the 4-byte
length prefix; if it exceeds the remaining bytes the shard yields nothing
(`filter_map` drops it), otherwise it yields exactly `len` bytes. -/
def unframeShard (s : List Nat) : Option (List Nat) :=
  if s.length < 4 then none
  else if (s.drop 4).length < decodeU32 (s.take 4) then none
  else some ((s.drop 4).take (decodeU32 (s.take 4)))

/-- Mirror of `pub fn reconstruct`, over an abstract codec and an abstract
byte-stream decoder `dec` standing for the external SCALE deserializer. -/
def reconstruct {α : Type} (dec : List Nat → Option (α × List Nat))
    (c : RSCodec) (n_validators : Nat) (chunks : List (List Nat × Nat)) :
    Except Error α :=
  match code_params n_validators with
  | .error e => .error e
  | .ok params =>
    match fillShards n_validators (List.replicate n_validators none) none
        (chunks.take n_validators) with
    | .error e => .error e
    | .ok shards =>
      match c.rsReconstruct params.data_shards params.parity_shards shards with
      | .error RsError.TooFewShardsPresent => .error Error.NotEnoughChunks
      | .error RsError.InvalidShardFlags => .error Error.WrongValidatorCount
      | .error RsError.TooManyShards => .error Error.TooManyChunks
      | .ok recovered =>
        match dec (((recovered.take params.data_shards).filterMap
            unframeShard).flatten) with
        | some pr => .ok pr.1
        | none => .error Error.BadPayload

/-- A concrete prefix decoder used by closed counterexamples: one length byte
followed by that many payload bytes. -/
def lenByteDec : List Nat → Option (List Nat × List Nat)
  | [] => none
  | k :: rest => if k ≤ rest.length then some (rest.take k, rest.drop k) else none

/-- Modelled from the spec: a trie node of the external trie engine (§6).  The
spec fixes only the interface — insertion, root-based lookup, recording
lookup, and proof-based lookup over a content-addressed node store — so the
model realizes the smallest conforming engine: a single node holding the
key-to-value association list. -/
abbrev TrieNode := List (List Nat × List Nat)

/-- Modelled from the spec: trie insertion; an existing key is overwritten,
otherwise the binding is appended. -/
def trieInsert (nd : TrieNode) (k v : List Nat) : TrieNode :=
  if nd.any (fun pr => pr.1 == k) then
    nd.map (fun pr => if pr.1 == k then (k, v) else pr)
  else nd ++ [(k, v)]

/-- Modelled from the spec: trie lookup of a key inside a node. -/
def trieLookup (nd : TrieNode) (k : List Nat) : Option (List Nat) :=
  (nd.find? (fun pr => pr.1 == k)).map Prod.snd

/-- The trie-building loop of `branches`: insert `encode_u32(i) → hash(c_i)`
for each chunk index `i`, starting from index `i0` and node `nd`. -/
def buildTrieAux (hashChunk : List Nat → List Nat) :
    Nat → List (List Nat) → TrieNode → TrieNode
  | _, [], nd => nd
  | i, chunk :: rest, nd =>
    buildTrieAux hashChunk (i + 1) rest
      (trieInsert nd (lenEncU32 i) (hashChunk chunk))

/-- The association list produced by inserting the chunks of a list starting
at index `i`; the closed form that `buildTrieAux` reaches when all inserted
keys are fresh. -/
def trieOf (hashChunk : List Nat → List Nat) :
    Nat → List (List Nat) → TrieNode
  | _, [] => []
  | i, chunk :: rest => (lenEncU32 i, hashChunk chunk) :: trieOf hashChunk (i + 1) rest

/-- The trie built by `branches` over a chunk list. -/
def buildTrie (hashChunk : List Nat → List Nat) (chunks : List (List Nat)) :
    TrieNode :=
  buildTrieAux hashChunk 0 chunks []

/-- The root exposed by `Branches::root`: the content address of the trie
under the node-hashing function of the engine. -/
def branchesRoot (hashNode : TrieNode → List Nat)
    (hashChunk : List Nat → List Nat) (chunks : List (List Nat)) : List Nat :=
  hashNode (buildTrie hashChunk chunks)

/-- The proof emitted by the `Branches` iterator for one index: the ordered
list of node blobs the recorded lookup touches — in the one-node engine, the
single trie node. -/
def branchesProof (hashChunk : List Nat → List Nat)
    (chunks : List (List Nat)) (_i : Nat) : List TrieNode :=
  [buildTrie hashChunk chunks]

/-- Mirror of `pub fn branch_hash`: store the proof nodes content-addressed,
fail `InvalidBranchProof` if the root node is absent, look the index up in the
trie, fail `BranchOutOfBounds` if the lookup completes without a value, fail
`InvalidBranchProof` if the value does not decode as a 32-byte hash, else
return the hash. -/
def branch_hash (hashNode : TrieNode → List Nat) (root : List Nat)
    (branch_nodes : List TrieNode) (index : Nat) : Except Error (List Nat) :=
  match branch_nodes.find? (fun nd => hashNode nd == root) with
  | none => .error Error.InvalidBranchProof
  | some nd =>
    match trieLookup nd (lenEncU32 index) with
    | none => .error Error.BranchOutOfBounds
    | some v =>
      if v.length < 32 then .error Error.InvalidBranchProof
      else .ok (v.take 32)

/-! ### General helper lemmas -/

theorem decodeU32_lenEncU32 (x : Nat) (hx : x < 4294967296) :
    decodeU32 (lenEncU32 x) = x := by
  unfold decodeU32 lenEncU32
  simp only [List.getD_cons_zero, List.getD_cons_succ]
  omega

theorem lenEncU32_inj {a b : Nat} (ha : a < 4294967296) (hb : b < 4294967296)
    (h : lenEncU32 a = lenEncU32 b) : a = b := by
  have h2 := congrArg decodeU32 h
  rwa [decodeU32_lenEncU32 a ha, decodeU32_lenEncU32 b hb] at h2

theorem lenEncU32_length (x : Nat) : (lenEncU32 x).length = 4 := rfl

theorem roundUpEven_even (x : Nat) : roundUpEven x % 2 = 0 := by
  unfold roundUpEven; split <;> omega

theorem roundUpEven_ge (x : Nat) : x ≤ roundUpEven x := by
  unfold roundUpEven; split <;> omega

theorem wrappedShardNew_length (l : List Nat) :
    (wrappedShardNew l).length = roundUpEven l.length := by
  unfold wrappedShardNew roundUpEven
  split <;> simp

theorem wrappedShardNew_of_even {l : List Nat} (h : l.length % 2 = 0) :
    wrappedShardNew l = l := by
  unfold wrappedShardNew
  rw [if_pos h]

theorem wrappedShardNew_replicate (m : Nat) :
    wrappedShardNew (List.replicate m 0) = List.replicate (roundUpEven m) 0 := by
  unfold wrappedShardNew roundUpEven
  simp only [List.length_replicate]
  split
  · rfl
  · rw [← List.replicate_succ']

theorem code_params_inv {n : Nat} {params : CodeParams}
    (h : code_params n = .ok params) :
    1 ≤ n ∧ n ≤ 65536 ∧ params.data_shards = (n - 1) / 3 + 1 ∧
      params.parity_shards = n - params.data_shards ∧
      1 ≤ params.data_shards ∧ params.data_shards ≤ n ∧
      params.data_shards + params.parity_shards = n := by
  unfold code_params at h
  split at h
  · exact absurd h (by simp)
  split at h
  · exact absurd h (by simp)
  · rename_i h1 h2
    have hd : (n - 1) / 3 ≤ n - 1 := Nat.div_le_self _ _
    injection h with h
    subst h
    refine ⟨by omega, by omega, rfl, by simp only; omega, by simp, by simp only; omega,
      by simp only; omega⟩

theorem shard_len_le_base {d base : Nat} (hd : 1 ≤ d) :
    base / d + base % d ≤ base := by
  have h1 := Nat.div_add_mod base d
  have h2 : base / d ≤ d * (base / d) := Nat.le_mul_of_pos_left _ (by omega)
  calc base / d + base % d ≤ d * (base / d) + base % d :=
        Nat.add_le_add_right h2 _
    _ = base := h1

theorem shard_len_pos {d base : Nat} (hd : 1 ≤ d) (hb : 0 < base) :
    0 < base / d + base % d := by
  rcases Nat.lt_or_ge base d with h | h
  · have hm : base % d = base := Nat.mod_eq_of_lt h
    rw [hm]
    exact Nat.lt_of_lt_of_le hb (Nat.le_add_left base _)
  · have hdiv : 0 < base / d := Nat.div_pos h (by omega)
    exact Nat.lt_of_lt_of_le hdiv (Nat.le_add_right _ _)

theorem base_le_mul_shard_len {d base : Nat} (hd : 1 ≤ d) :
    base ≤ d * (base / d + base % d) := by
  have h1 := Nat.div_add_mod base d
  have h2 : base % d ≤ d * (base % d) := Nat.le_mul_of_pos_left _ (by omega)
  calc base = d * (base / d) + base % d := h1.symm
    _ ≤ d * (base / d) + d * (base % d) := Nat.add_le_add_left h2 _
    _ = d * (base / d + base % d) := (Nat.mul_add d _ _).symm

/-! ### Claim C5: parameter derivation -/

/-- C5: `code_params` fails with `TooManyValidators` above `2^16`, with
`EmptyValidators` at `0`, and for `1 ≤ n ≤ 2^16` returns
`data_shards = (n-1)/3 + 1` and `parity_shards = n - data_shards`, which
satisfy `data_shards ≥ 1` and `data_shards + parity_shards = n`. -/
theorem claim_C5_params (n : Nat) :
    (65536 < n → code_params n = .error Error.TooManyValidators) ∧
    (code_params 0 = .error Error.EmptyValidators) ∧
    (1 ≤ n → n ≤ 65536 →
      code_params n = .ok ⟨(n - 1) / 3 + 1, n - ((n - 1) / 3 + 1)⟩ ∧
        1 ≤ (n - 1) / 3 + 1 ∧
        ((n - 1) / 3 + 1) + (n - ((n - 1) / 3 + 1)) = n) := by
  refine ⟨fun h => ?_, rfl, fun h1 h2 => ?_⟩
  · unfold code_params
    rw [if_pos h]
  · have hd : (n - 1) / 3 ≤ n - 1 := Nat.div_le_self _ _
    refine ⟨?_, by omega, by omega⟩
    unfold code_params
    rw [if_neg (by omega), if_neg (by omega)]
    show Except.ok (CodeParams.mk ((n - 1) / 3 + 1) (n - (n - 1) / 3 - 1)) = _
    rw [Nat.sub_sub]

theorem claim_C5_params_witness :
    code_params 65537 = .error Error.TooManyValidators ∧
    code_params 0 = .error Error.EmptyValidators ∧
    (code_params 7 = .ok ⟨3, 4⟩ ∧ 1 ≤ 3 ∧ 3 + 4 = 7) :=
  ⟨(claim_C5_params 65537).1 (by decide), (claim_C5_params 65537).2.1,
    (claim_C5_params 7).2.2 (by decide) (by decide)⟩

/-! ### Claim C2: per-shard capacity -/

/-- C2 counterexample: with `data_shards = 3` and `|P| = 5`, the code computes
a per-shard capacity of `3`, while the ceiling division claimed by the spec is
`2`. -/
theorem claim_C2_ceiling_cx :
    CodeParams.shard_len ⟨3, 4⟩ 5 = 3 ∧
      5 / 3 + (if 5 % 3 = 0 then 0 else 1) = 2 ∧ (3 : Nat) ≠ 2 := by decide

/-- C2 (amended): the per-shard capacity used when framing is
`|P|/d + |P| mod d`.  This is at least the ceiling division `⌈|P|/d⌉` claimed
by the spec — with equality exactly when `|P| mod d ≤ 1` — and is always large
enough for the `d` data shards to hold the whole payload. -/
theorem claim_C2_shard_len (params : CodeParams) (base : Nat)
    (hd : 1 ≤ params.data_shards) :
    (base / params.data_shards + (if base % params.data_shards = 0 then 0 else 1)
        ≤ params.shard_len base) ∧
      base ≤ params.data_shards * params.shard_len base ∧
      (base % params.data_shards ≤ 1 →
        params.shard_len base =
          base / params.data_shards +
            (if base % params.data_shards = 0 then 0 else 1)) := by
  unfold CodeParams.shard_len
  refine ⟨?_, base_le_mul_shard_len hd, fun h => ?_⟩
  · split <;> omega
  · split <;> omega

theorem claim_C2_shard_len_witness :
    1 ≤ (3 : Nat) ∧
      (5 / 3 + (if 5 % 3 = 0 then 0 else 1) ≤ CodeParams.shard_len ⟨3, 4⟩ 5 ∧
        5 ≤ 3 * CodeParams.shard_len ⟨3, 4⟩ 5 ∧
        (5 % 3 ≤ 1 →
          CodeParams.shard_len ⟨3, 4⟩ 5 =
            5 / 3 + (if 5 % 3 = 0 then 0 else 1))) :=
  ⟨by decide, claim_C2_shard_len ⟨3, 4⟩ 5 (by decide)⟩

/-! ### Claim C10: only the first `n` input items matter -/

/-- C10: `reconstruct` consumes at most `n` items of its input; two inputs
that agree on their first `n` items produce the same result, so items past
the `n`-th (including ones with out-of-bounds indices) cannot change the
outcome or cause an error. -/
theorem claim_C10_take {α : Type} (dec : List Nat → Option (α × List Nat))
    (c : RSCodec) (n : Nat) (in1 in2 : List (List Nat × Nat))
    (h : in1.take n = in2.take n) :
    reconstruct dec c n in1 = reconstruct dec c n in2 := by
  unfold reconstruct
  rw [h]

theorem claim_C10_take_witness :
    ([([0, 0], 0)] : List (List Nat × Nat)).take 1 =
        ([([0, 0], 0), ([1, 2, 3], 99)] : List (List Nat × Nat)).take 1 ∧
      reconstruct lenByteDec modelCodec 1 [([0, 0], 0)] =
        reconstruct lenByteDec modelCodec 1 [([0, 0], 0), ([1, 2, 3], 99)] :=
  ⟨rfl, claim_C10_take lenByteDec modelCodec 1 _ _ rfl⟩

/-! ### Claim C7: odd-length chunks -/

/-- C7 counterexample: an odd-length chunk in the second position of the input
fails with `NonUniformChunks`, not `UnevenLength` — the parity check is made
against the remembered length of the first chunk, so the claim's "regardless
of the position" is false. -/
theorem claim_C7_odd_cx :
    reconstruct lenByteDec modelCodec 2 [([0, 0], 0), ([0, 0, 0], 1)] =
        .error Error.NonUniformChunks ∧
      Error.NonUniformChunks ≠ Error.UnevenLength := ⟨rfl, by decide⟩

/-- C7 (amended): a reconstruction input whose first consumed chunk has odd
length fails with `UnevenLength` (for any in-bounds first index); odd-length
chunks in later positions are caught as `NonUniformChunks` instead, because
the parity check is made on the remembered first length. -/
theorem claim_C7_uneven {α : Type} (dec : List Nat → Option (α × List Nat))
    (c : RSCodec) (n : Nat) (b : List Nat) (i : Nat)
    (rest : List (List Nat × Nat)) (params : CodeParams)
    (hpar : code_params n = .ok params) (hi : i < n)
    (hodd : b.length % 2 = 1) :
    reconstruct dec c n ((b, i) :: rest) = .error Error.UnevenLength := by
  obtain ⟨m, rfl⟩ : ∃ m, n = m + 1 := ⟨n - 1, by omega⟩
  unfold reconstruct
  rw [hpar, List.take_succ_cons]
  unfold fillShards
  rw [if_neg (by omega)]
  simp only [Option.getD_none]
  rw [if_pos (by omega)]

theorem claim_C7_uneven_witness :
    code_params 2 = .ok ⟨1, 1⟩ ∧ List.length [0, 0, 0] % 2 = 1 ∧
      reconstruct lenByteDec modelCodec 2 [([0, 0, 0], 0)] =
        .error Error.UnevenLength :=
  ⟨rfl, by decide,
    claim_C7_uneven lenByteDec modelCodec 2 [0, 0, 0] 0 [] ⟨1, 1⟩ rfl
      (by decide) (by decide)⟩

/-! ### Properties of the model codec -/

theorem modelCodec_tooFew : ReconstructTooFew modelCodec := by
  intro d p holes h
  unfold presentCount at h
  unfold modelCodec
  simp only
  rw [if_pos h]

theorem filterMap_id_length_of_all_isSome
    {holes : List (Option (List Nat))} (h : ∀ o ∈ holes, o.isSome) :
    (holes.filterMap id).length = holes.length := by
  induction holes with
  | nil => rfl
  | cons o t ih =>
    have ho := h o (List.mem_cons_self o t)
    obtain ⟨a, rfl⟩ := Option.isSome_iff_exists.mp ho
    simp only [List.filterMap_cons, id]
    rw [List.length_cons, List.length_cons]
    rw [ih (fun o ho2 => h o (List.mem_cons_of_mem _ ho2))]

theorem modelCodec_allPresent : ReconstructAllPresent modelCodec := by
  intro d p holes hlen hd hall
  unfold modelCodec
  simp only
  rw [if_neg (by rw [filterMap_id_length_of_all_isSome hall]; omega)]
  rw [if_pos (List.all_eq_true.mpr hall)]

theorem modelCodec_keepsData : EncodeKeepsData modelCodec := by
  intro d p shards hlen hd
  unfold modelCodec
  simp only
  constructor
  · rw [List.length_append, List.length_take, List.length_map, List.length_drop]
    omega
  · rw [List.take_append_eq_append_take, List.take_take]
    have h1 : (List.take d shards).length = d := by
      rw [List.length_take]; omega
    rw [h1]
    simp [Nat.min_self]

theorem modelCodec_uniformLen : EncodeUniformLen modelCodec := by
  intro d p shards L hlen hd hL2 hL0 huni s hs
  unfold modelCodec at hs
  simp only at hs
  rcases List.mem_append.mp hs with h | h
  · exact huni s (List.mem_of_mem_take h)
  · obtain ⟨x, _, rfl⟩ := List.mem_map.mp h
    have hne : shards ≠ [] := by
      intro h0
      rw [h0] at hlen
      simp at hlen
      omega
    obtain ⟨y, rest, rfl⟩ := List.exists_cons_of_ne_nil hne
    exact huni y (List.mem_cons_self y rest)

theorem modelCodec_encode_d1 (p : Nat) (shards : List (List Nat))
    (hlen : shards.length = 1 + p) (i : Nat)
    (hi : i < (modelCodec.rsEncode 1 p shards).length) :
    (modelCodec.rsEncode 1 p shards).getD i [] = shards.headD [] := by
  have hne : shards ≠ [] := by
    intro h
    rw [h] at hlen
    simp only [List.length_nil] at hlen
    omega
  obtain ⟨s0, rest, rfl⟩ := List.exists_cons_of_ne_nil hne
  have hcw : modelCodec.rsEncode 1 p (s0 :: rest) =
      s0 :: rest.map (fun _ => s0) := rfl
  rw [hcw] at hi ⊢
  cases i with
  | zero => rfl
  | succ j =>
    rw [List.getD_cons_succ, List.headD_cons]
    rw [List.length_cons, List.length_map] at hi
    have hj : j < (List.map (fun _ => s0) rest).length := by
      rw [List.length_map]; omega
    rw [List.getD_eq_getElem _ _ hj, List.getElem_map]

theorem modelCodec_mds_d1 (p : Nat) : MdsAt modelCodec 1 p := by
  intro shards L holes hlen hd hL2 hL0 huni hera hpres
  obtain ⟨hlen2, hslot⟩ := hera
  have hcwlen : (modelCodec.rsEncode 1 p shards).length = 1 + p :=
    (modelCodec_keepsData 1 p shards hlen hd).1
  have hlen2' : holes.length = (modelCodec.rsEncode 1 p shards).length := hlen2
  have hhl : holes.length = 1 + p := by rw [hlen2', hcwlen]
  have hslot2 : ∀ i (hi : i < holes.length),
      holes[i] = none ∨ holes[i] = some (shards.headD []) := by
    intro i hi
    have h2 := hslot i hi
    rw [List.getD_eq_getElem _ _ hi] at h2
    rcases h2 with h2 | h2
    · exact Or.inl h2
    · refine Or.inr ?_
      rw [h2]
      congr 1
      exact modelCodec_encode_d1 p shards hlen i (by rw [hcwlen]; omega)
  have hs0 : ∀ o ∈ holes, o = none ∨ o = some (shards.headD []) := by
    intro o ho
    obtain ⟨i, hi, hio⟩ := List.mem_iff_getElem.mp ho
    rcases hslot2 i hi with h | h
    · exact Or.inl (hio ▸ h)
    · exact Or.inr (hio ▸ h)
  unfold presentCount at hpres
  have hrec : modelCodec.rsReconstruct 1 p holes =
      if (holes.filterMap id).length < 1 then
        .error RsError.TooFewShardsPresent
      else if holes.all (fun o => o.isSome) then
        .ok (holes.map (fun o => o.getD []))
      else
        .ok (List.replicate holes.length ((holes.filterMap id).headD [])) := rfl
  rw [hrec]
  rw [if_neg (by omega)]
  by_cases hall : holes.all (fun o => o.isSome) = true
  · rw [if_pos hall]
    congr 1
    apply List.ext_getElem
    · rw [List.length_map]
      exact hlen2'
    · intro i h1 h2
      have hi3 : i < holes.length := by rw [List.length_map] at h1; exact h1
      rw [List.getElem_map]
      have hmem : holes[i] ∈ holes := List.getElem_mem hi3
      have hsome : holes[i].isSome := List.all_eq_true.mp hall _ hmem
      rcases hslot2 i hi3 with h | h
      · rw [h] at hsome; simp at hsome
      · rw [h]
        simp only [Option.getD_some]
        rw [← List.getD_eq_getElem _ [] h2]
        exact (modelCodec_encode_d1 p shards hlen i h2).symm
  · rw [if_neg hall]
    congr 1
    have hne : holes.filterMap id ≠ [] := by
      intro h0
      rw [h0] at hpres
      simp at hpres
    obtain ⟨x, xs, hfm⟩ := List.exists_cons_of_ne_nil hne
    have hx : x = shards.headD [] := by
      have hmem : x ∈ holes.filterMap id := by
        rw [hfm]; exact List.mem_cons_self _ _
      obtain ⟨o, ho, hox⟩ := List.mem_filterMap.mp hmem
      rcases hs0 o ho with h | h
      · rw [h] at hox; exact absurd hox (by simp)
      · rw [h] at hox
        simp only [id] at hox
        exact (Option.some_inj.mp hox).symm
    apply List.ext_getElem
    · rw [List.length_replicate]
      exact hlen2'
    · intro i h1 h2
      rw [List.getElem_replicate, hfm]
      simp only [List.headD_cons]
      rw [hx]
      rw [← List.getD_eq_getElem _ [] h2]
      exact (modelCodec_encode_d1 p shards hlen i h2).symm

/-! ### The per-chunk validation loop -/

theorem fillShards_ok (n L : Nat) :
    ∀ (inp : List (List Nat × Nat)) (shards : List (Option (List Nat)))
      (slOpt : Option Nat),
      (∀ pr ∈ inp, pr.2 < n ∧ pr.1.length = L) → L % 2 = 0 → L ≠ 0 →
      (slOpt = none ∨ slOpt = some L) →
      fillShards n shards slOpt inp =
        .ok (inp.foldl (fun sh pr => sh.set pr.2 (some pr.1)) shards) := by
  intro inp
  induction inp with
  | nil =>
    intro shards slOpt h hL2 hL0 hsl
    rfl
  | cons pr rest ih =>
    intro shards slOpt h hL2 hL0 hsl
    obtain ⟨b, i⟩ := pr
    have hb := h (b, i) (List.mem_cons_self _ _)
    simp only at hb
    unfold fillShards
    rw [if_neg (by omega)]
    have hLval : slOpt.getD b.length = L := by
      rcases hsl with h1 | h1
      · rw [h1, Option.getD_none, hb.2]
      · rw [h1, Option.getD_some]
    rw [hLval]
    rw [if_neg (by omega)]
    rw [if_neg (by rw [hb.2]; omega)]
    have hw : wrappedShardNew b = b :=
      wrappedShardNew_of_even (by rw [hb.2]; omega)
    rw [hw, List.foldl_cons]
    exact ih (shards.set i (some b)) (some L)
      (fun pr hpr => h pr (List.mem_cons_of_mem _ hpr)) hL2 hL0 (Or.inr rfl)

theorem foldl_set_length (inp : List (List Nat × Nat)) :
    ∀ (sh : List (Option (List Nat))),
      (inp.foldl (fun sh2 pr => sh2.set pr.2 (some pr.1)) sh).length =
        sh.length := by
  induction inp with
  | nil => intro sh; rfl
  | cons pr rest ih =>
    intro sh
    rw [List.foldl_cons, ih, List.length_set]

theorem foldl_set_getD (v : Nat → List Nat) :
    ∀ (S : List Nat) (sh : List (Option (List Nat))) (j : Nat), j < sh.length →
      ((S.map (fun i => (v i, i))).foldl
          (fun sh2 pr => sh2.set pr.2 (some pr.1)) sh).getD j none =
        if j ∈ S then some (v j) else sh.getD j none := by
  intro S
  induction S with
  | nil =>
    intro sh j hj
    simp
  | cons i S' ih =>
    intro sh j hj
    rw [List.map_cons, List.foldl_cons]
    rw [ih (sh.set i (some (v i))) j (by rw [List.length_set]; exact hj)]
    by_cases hjS : j ∈ S'
    · rw [if_pos hjS, if_pos (List.mem_cons_of_mem _ hjS)]
    · rw [if_neg hjS]
      by_cases hji : j = i
      · subst hji
        rw [if_pos (List.mem_cons_self _ _)]
        rw [List.getD_eq_getElem?_getD, List.getElem?_set_self hj,
          Option.getD_some]
      · rw [List.getD_eq_getElem?_getD,
          List.getElem?_set_ne (fun h => hji h.symm),
          ← List.getD_eq_getElem?_getD]
        rw [if_neg (by simp [List.mem_cons, hji, hjS])]

theorem presentCount_eq_countP (holes : List (Option (List Nat))) :
    presentCount holes = holes.countP (fun o => o.isSome) := by
  induction holes with
  | nil => rfl
  | cons o t ih =>
    unfold presentCount at ih ⊢
    rw [List.countP_cons]
    cases o with
    | none => simpa using ih
    | some a =>
      simp only [List.filterMap_cons, id, List.length_cons]
      simp only [Option.isSome_some, if_pos]
      omega

theorem countP_isSome_set (b : List Nat) :
    ∀ (sh : List (Option (List Nat))) (j : Nat), j < sh.length →
      sh.getD j none = none →
      (sh.set j (some b)).countP (fun o => o.isSome) =
        sh.countP (fun o => o.isSome) + 1 := by
  intro sh
  induction sh with
  | nil =>
    intro j hj _
    simp at hj
  | cons o t ih =>
    intro j hj hnone
    cases j with
    | zero =>
      rw [List.getD_cons_zero] at hnone
      subst hnone
      rw [List.set_cons_zero]
      rw [List.countP_cons, List.countP_cons]
      simp
    | succ k =>
      rw [List.getD_cons_succ] at hnone
      rw [List.set_cons_succ]
      rw [List.countP_cons, List.countP_cons]
      rw [ih k (by rw [List.length_cons] at hj; omega) hnone]
      omega

theorem presentCount_foldl_nodup (v : Nat → List Nat) :
    ∀ (S : List Nat) (sh : List (Option (List Nat))), S.Nodup →
      (∀ i ∈ S, i < sh.length ∧ sh.getD i none = none) →
      ((S.map (fun i => (v i, i))).foldl
          (fun sh2 pr => sh2.set pr.2 (some pr.1)) sh).countP
          (fun o => o.isSome) =
        sh.countP (fun o => o.isSome) + S.length := by
  intro S
  induction S with
  | nil =>
    intro sh _ _
    rfl
  | cons i S' ih =>
    intro sh hnd hok
    rw [List.map_cons, List.foldl_cons]
    have hi := hok i (List.mem_cons_self _ _)
    have hrest : ∀ i' ∈ S', i' < (sh.set i (some (v i))).length ∧
        (sh.set i (some (v i))).getD i' none = none := by
      intro i' hi'
      have hne : i' ≠ i := by
        intro h
        subst h
        exact (List.nodup_cons.mp hnd).1 hi'
      refine ⟨?_, ?_⟩
      · rw [List.length_set]
        exact (hok i' (List.mem_cons_of_mem _ hi')).1
      · rw [List.getD_eq_getElem?_getD,
          List.getElem?_set_ne (fun h => hne h.symm),
          ← List.getD_eq_getElem?_getD]
        exact (hok i' (List.mem_cons_of_mem _ hi')).2
    rw [ih (sh.set i (some (v i))) (List.Nodup.of_cons hnd) hrest]
    rw [countP_isSome_set (v i) sh i hi.1 hi.2]
    rw [List.length_cons]
    omega

theorem replicate_none_getD (n j : Nat) :
    (List.replicate n (none : Option (List Nat))).getD j none = none := by
  rw [List.getD_eq_getElem?_getD, List.getElem?_replicate]
  split <;> rfl

theorem replicate_none_countP (n : Nat) :
    (List.replicate n (none : Option (List Nat))).countP
      (fun o => o.isSome) = 0 := by
  rw [List.countP_eq_zero]
  intro a ha
  rw [List.eq_of_mem_replicate ha]
  simp

theorem nodup_length_le_of_lt (S : List Nat) (n : Nat) (hnd : S.Nodup)
    (hb : ∀ i ∈ S, i < n) : S.length ≤ n := by
  have h1 : S.toFinset.card = S.length := List.toFinset_card_of_nodup hnd
  have h2 : S.toFinset ⊆ Finset.range n := by
    intro x hx
    rw [Finset.mem_range]
    exact hb x (List.mem_toFinset.mp hx)
  have h3 := Finset.card_le_card h2
  rw [Finset.card_range] at h3
  omega

theorem foldl_set_isSome (inp : List (List Nat × Nat)) :
    ∀ (sh : List (Option (List Nat))) (j : Nat),
      ((inp.foldl (fun sh2 pr => sh2.set pr.2 (some pr.1)) sh).getD j
          none).isSome = true ↔
        (j ∈ inp.map Prod.snd ∧ j < sh.length) ∨
          (sh.getD j none).isSome = true := by
  induction inp with
  | nil =>
    intro sh j
    simp
  | cons pr rest ih =>
    intro sh j
    obtain ⟨b, i⟩ := pr
    rw [List.foldl_cons, ih (sh.set i (some b)) j]
    rw [List.length_set, List.map_cons, List.mem_cons]
    by_cases hji : j = i
    · subst hji
      by_cases hlen : j < sh.length
      · rw [List.getD_eq_getElem?_getD, List.getElem?_set_self hlen,
          Option.getD_some]
        simp [hlen]
      · rw [List.set_eq_of_length_le (by omega)]
        simp [hlen]
    · rw [List.getD_eq_getElem?_getD,
        List.getElem?_set_ne (fun h => hji h.symm),
        ← List.getD_eq_getElem?_getD]
      simp [hji]

theorem countP_isSome_positions (l : List (Option (List Nat))) :
    l.countP (fun o => o.isSome) =
      ((List.range l.length).filter
        (fun j => (l.getD j none).isSome)).length := by
  induction l with
  | nil => rfl
  | cons o t ih =>
    rw [List.countP_cons, List.length_cons, List.range_succ_eq_map,
      List.filter_cons, List.filter_map]
    have hcong : List.filter
        ((fun j => ((o :: t).getD j none).isSome) ∘ Nat.succ)
        (List.range t.length) =
        List.filter (fun j => (t.getD j none).isSome)
          (List.range t.length) := by
      apply List.filter_congr
      intro j _
      simp [Function.comp, List.getD_cons_succ]
    rw [hcong]
    simp only [List.getD_cons_zero]
    by_cases ho : o.isSome = true
    · rw [if_pos ho, if_pos ho, List.length_cons, List.length_map, ih]
    · rw [if_neg ho, if_neg ho, List.length_map, ih]
      exact Nat.add_zero _

theorem nodup_sub_length_le_dedup (l ids : List Nat) (hnd : l.Nodup)
    (hsub : ∀ j ∈ l, j ∈ ids) : l.length ≤ ids.dedup.length := by
  have h1 := List.toFinset_card_of_nodup hnd
  have h2 := List.toFinset_card_of_nodup (List.nodup_dedup ids)
  have hsub2 : l.toFinset ⊆ ids.dedup.toFinset := by
    intro x hx
    rw [List.mem_toFinset] at hx ⊢
    rw [List.mem_dedup]
    exact hsub x hx
  have h3 := Finset.card_le_card hsub2
  omega

theorem reconstruct_eq {α : Type} (dec : List Nat → Option (α × List Nat))
    (c : RSCodec) (n : Nat) (chunks : List (List Nat × Nat))
    (params : CodeParams) (shards : List (Option (List Nat)))
    (hpar : code_params n = .ok params)
    (hfill : fillShards n (List.replicate n none) none (chunks.take n) =
      .ok shards) :
    reconstruct dec c n chunks =
      match c.rsReconstruct params.data_shards params.parity_shards shards with
      | .error RsError.TooFewShardsPresent => .error Error.NotEnoughChunks
      | .error RsError.InvalidShardFlags => .error Error.WrongValidatorCount
      | .error RsError.TooManyShards => .error Error.TooManyChunks
      | .ok recovered =>
        match dec (((recovered.take params.data_shards).filterMap
            unframeShard).flatten) with
        | some pr => .ok pr.1
        | none => .error Error.BadPayload := by
  simp only [reconstruct, hpar, hfill]

/-! ### Claim C6: erasure threshold -/

/-- C6: a reconstruction input whose chunks pass the per-chunk index and
length checks but cover fewer than `data_shards` distinct in-bounds indices
fails with `NotEnoughChunks`. -/
theorem claim_C6_threshold {α : Type} (dec : List Nat → Option (α × List Nat))
    (c : RSCodec) (n L : Nat) (input : List (List Nat × Nat))
    (params : CodeParams)
    (htf : ReconstructTooFew c)
    (hpar : code_params n = .ok params)
    (hin : ∀ pr ∈ input.take n, pr.2 < n ∧ pr.1.length = L)
    (hL2 : L % 2 = 0) (hL0 : L ≠ 0)
    (hcard : ((input.take n).map Prod.snd).dedup.length < params.data_shards) :
    reconstruct dec c n input = .error Error.NotEnoughChunks := by
  have hfill := fillShards_ok n L (input.take n) (List.replicate n none) none
    hin hL2 hL0 (Or.inl rfl)
  rw [reconstruct_eq dec c n input params _ hpar hfill]
  set folded := (input.take n).foldl
    (fun sh pr => sh.set pr.2 (some pr.1)) (List.replicate n none) with hfolded
  have hlenf : folded.length = n := by
    rw [hfolded, foldl_set_length, List.length_replicate]
  have hcount : presentCount folded < params.data_shards := by
    rw [presentCount_eq_countP, countP_isSome_positions, hlenf]
    have hle : ((List.range n).filter
        (fun j => (folded.getD j none).isSome)).length ≤
        ((input.take n).map Prod.snd).dedup.length := by
      apply nodup_sub_length_le_dedup
      · exact List.Nodup.filter _ (List.nodup_range n)
      · intro j hj
        have hpred := List.of_mem_filter hj
        rw [hfolded] at hpred
        have h2 := (foldl_set_isSome (input.take n)
          (List.replicate n none) j).mp (by simpa using hpred)
        rcases h2 with h2 | h2
        · exact h2.1
        · rw [replicate_none_getD] at h2
          simp at h2
    omega
  rw [htf params.data_shards params.parity_shards folded hcount]

theorem claim_C6_threshold_witness :
    ((([([0, 0], 1)] : List (List Nat × Nat)).take 4).map
        Prod.snd).dedup.length < 2 ∧
      reconstruct lenByteDec modelCodec 4 [([0, 0], 1)] =
        .error Error.NotEnoughChunks :=
  ⟨by decide,
    claim_C6_threshold lenByteDec modelCodec 4 2 [([0, 0], 1)] ⟨2, 2⟩
      modelCodec_tooFew rfl (by decide) (by decide) (by decide) (by decide)⟩

/-! ### Shard framing lemmas -/

theorem frameShard_length (cap : Nat) (piece : List Nat) :
    (frameShard cap piece).length = cap + 4 := by
  unfold frameShard
  rw [List.length_append, List.length_append, lenEncU32_length,
    List.length_take, List.length_replicate]
  omega


theorem unframe_frameShard (cap : Nat) (piece : List Nat)
    (hle : piece.length ≤ cap) (h32 : piece.length < 4294967296) :
    unframeShard (frameShard cap piece) = some piece := by
  have hmin : min piece.length cap = piece.length := Nat.min_eq_left hle
  have hshape : frameShard cap piece =
      lenEncU32 piece.length ++
        (piece ++ List.replicate (cap - piece.length) 0) := by
    unfold frameShard
    rw [hmin, List.take_length, List.append_assoc]
  rw [hshape]
  have henc : (lenEncU32 piece.length).length = 4 := lenEncU32_length _
  have hrest : (piece ++ List.replicate (cap - piece.length) 0).length = cap := by
    rw [List.length_append, List.length_replicate]
    omega
  have htake : (lenEncU32 piece.length ++
      (piece ++ List.replicate (cap - piece.length) 0)).take 4 =
      lenEncU32 piece.length := by
    rw [List.take_append_eq_append_take, henc,
      List.take_of_length_le (le_of_eq henc), Nat.sub_self, List.take_zero,
      List.append_nil]
  have hdrop : (lenEncU32 piece.length ++
      (piece ++ List.replicate (cap - piece.length) 0)).drop 4 =
      piece ++ List.replicate (cap - piece.length) 0 := by
    rw [List.drop_append_eq_append_drop, henc,
      List.drop_eq_nil_of_le (le_of_eq henc), Nat.sub_self, List.drop_zero,
      List.nil_append]
  unfold unframeShard
  rw [List.length_append, henc, hrest]
  rw [if_neg (by omega)]
  rw [htake, hdrop, decodeU32_lenEncU32 _ h32, hrest]
  rw [if_neg (by omega)]
  congr 1
  rw [List.take_append_eq_append_take, List.take_length, Nat.sub_self,
    List.take_zero, List.append_nil]

theorem unframe_blank (m : Nat) (hm : 4 ≤ m) :
    unframeShard (List.replicate m 0) = some [] := by
  unfold unframeShard
  rw [List.length_replicate]
  rw [if_neg (by omega)]
  rw [List.take_replicate]
  rw [Nat.min_eq_left hm]
  have hdec : decodeU32 (List.replicate 4 0) = 0 := rfl
  rw [hdec]
  rw [if_neg (by omega)]
  rw [List.take_zero]

theorem blank_length (sl : Nat) :
    (wrappedShardNew (List.replicate (sl + 4) 0)).length =
      roundUpEven (sl + 4) := by
  rw [wrappedShardNew_length, List.length_replicate]

theorem make_shards_length (params : CodeParams) (payload : List Nat) :
    (params.make_shards_for payload).length =
      params.data_shards + params.parity_shards := by
  simp only [CodeParams.make_shards_for]
  rw [List.length_map, List.length_range]

theorem make_shards_uniform (params : CodeParams) (payload : List Nat) :
    ∀ s ∈ params.make_shards_for payload,
      s.length = roundUpEven (params.shard_len payload.length + 4) := by
  intro s hs
  simp only [CodeParams.make_shards_for] at hs
  obtain ⟨j, hjr, rfl⟩ := List.mem_map.mp hs
  split
  · rw [frameShard_length, blank_length]
    have h4 : 4 ≤ roundUpEven (params.shard_len payload.length + 4) :=
      le_trans (by omega) (roundUpEven_ge _)
    omega
  · exact blank_length _

theorem filterMap_congr_some {α β : Type} (f : α → Option β) (g : α → β)
    (l : List α) (h : ∀ a ∈ l, f a = some (g a)) :
    l.filterMap f = l.map g := by
  induction l with
  | nil => rfl
  | cons a t ih =>
    rw [List.filterMap_cons_some (h a (List.mem_cons_self _ _)), List.map_cons]
    rw [ih (fun x hx => h x (List.mem_cons_of_mem _ hx))]

theorem map_range_take {β : Type} (f : Nat → β) (d k : Nat) (hdk : d ≤ k) :
    ((List.range k).map f).take d = (List.range d).map f := by
  rw [← List.map_take, List.take_range, Nat.min_eq_left hdk]

theorem flatten_pieces (sl : Nat) (_hsl : 0 < sl) :
    ∀ (k : Nat) (l : List Nat), l.length ≤ k * sl →
      ((List.range k).map (fun j => (l.drop (j * sl)).take sl)).flatten = l := by
  intro k
  induction k with
  | zero =>
    intro l hl
    have hnil : l = [] := List.eq_nil_of_length_eq_zero (by simpa using hl)
    rw [hnil]
    rfl
  | succ k ih =>
    intro l hl
    rw [List.range_succ_eq_map, List.map_cons, List.flatten_cons]
    simp only [Nat.zero_mul, List.drop_zero]
    rw [List.map_map]
    have hmap : List.map ((fun j => (l.drop (j * sl)).take sl) ∘ Nat.succ)
        (List.range k) =
        (List.range k).map (fun j => ((l.drop sl).drop (j * sl)).take sl) := by
      apply List.map_congr_left
      intro j _
      simp only [Function.comp]
      rw [List.drop_drop, Nat.succ_mul, Nat.add_comm (j * sl) sl]
    rw [hmap]
    rw [ih (l.drop sl) (by rw [List.length_drop]; rw [Nat.succ_mul] at hl; omega)]
    exact List.take_append_drop sl l

theorem data_stream_eq (params : CodeParams) (payload : List Nat)
    (hd : 1 ≤ params.data_shards) (hp : payload ≠ [])
    (h32 : payload.length < 4294967296) :
    (((params.make_shards_for payload).take params.data_shards).filterMap
        unframeShard).flatten = payload := by
  have hsl : 0 < params.shard_len payload.length :=
    shard_len_pos hd (List.length_pos_of_ne_nil hp)
  have hcap : params.shard_len payload.length ≤
      roundUpEven (params.shard_len payload.length + 4) - 4 := by
    have := roundUpEven_ge (params.shard_len payload.length + 4)
    omega
  simp only [CodeParams.make_shards_for]
  rw [map_range_take _ _ _ (Nat.le_add_right _ _)]
  rw [List.filterMap_map]
  rw [filterMap_congr_some _
    (fun j => (payload.drop (j * params.shard_len payload.length)).take
      (params.shard_len payload.length)) _ ?hsome]
  · exact flatten_pieces _ hsl _ _
      (base_le_mul_shard_len hd)
  case hsome =>
    intro j _
    simp only [Function.comp]
    split
    · rw [blank_length]
      apply unframe_frameShard
      · rw [List.length_take]
        have h2 := hcap
        omega
      · have h1 : ((payload.drop (j * params.shard_len payload.length)).take
            (params.shard_len payload.length)).length ≤
            params.shard_len payload.length := by
          rw [List.length_take]; omega
        have h2 : params.shard_len payload.length ≤ payload.length :=
          shard_len_le_base hd
        omega
    · rename_i hge
      rw [wrappedShardNew_replicate]
      rw [unframe_blank _ (le_trans (by omega) (roundUpEven_ge _))]
      congr 1
      rw [List.drop_eq_nil_of_le (by omega), List.take_nil]

theorem obtain_chunks_eq (c : RSCodec) (n : Nat) (payload : List Nat)
    (params : CodeParams) (hpar : code_params n = .ok params)
    (hp : payload.length ≠ 0) :
    obtain_chunks c n payload =
      .ok (c.rsEncode params.data_shards params.parity_shards
        (params.make_shards_for payload)) := by
  simp only [obtain_chunks, hpar, if_neg hp]

/-! ### Claim C3: uniform even chunk length -/

/-- C3 counterexample: with `n = 7` (hence `data_shards = 3`) and a 5-byte
payload, every chunk of a successful `obtain_chunks` call has length 8, while
the spec's formula — ceiling capacity `s = ⌈5/3⌉ = 2`, so `s + 4 = 6`, already
even — claims length 6. -/
theorem claim_C3_len_cx :
    Except.map (fun cs => cs.map List.length)
        (obtain_chunks modelCodec 7 [1, 2, 3, 4, 5]) =
      .ok (List.replicate 7 8) ∧
      roundUpEven (5 / 3 + (if 5 % 3 = 0 then 0 else 1) + 4) = 6 ∧
      (8 : Nat) ≠ 6 := ⟨rfl, by decide, by decide⟩

/-- C3 (amended): all chunks returned by one successful `obtain_chunks` call
have the same even length `L`, where `L` is `shard_len + 4` rounded up to the
next even number and `shard_len = |P|/d + |P| mod d` is the capacity the code
actually computes (not the ceiling division claimed by the spec). -/
theorem claim_C3_uniform_even (c : RSCodec) (n : Nat) (payload : List Nat)
    (chunks : List (List Nat)) (params : CodeParams)
    (hpar : code_params n = .ok params)
    (hkeep : EncodeKeepsData c) (huni : EncodeUniformLen c)
    (hp : payload ≠ [])
    (hchunks : obtain_chunks c n payload = .ok chunks) :
    chunks.map List.length =
      List.replicate n (roundUpEven (params.shard_len payload.length + 4)) ∧
      roundUpEven (params.shard_len payload.length + 4) % 2 = 0 := by
  obtain ⟨hn1, hn2, hdps, hpps, hd1, hdn, hsum⟩ := code_params_inv hpar
  have hlen0 : payload.length ≠ 0 := by
    intro h
    exact hp (List.eq_nil_of_length_eq_zero h)
  rw [obtain_chunks_eq c n payload params hpar hlen0] at hchunks
  injection hchunks with hchunks
  subst hchunks
  have hmslen : (params.make_shards_for payload).length =
      params.data_shards + params.parity_shards := make_shards_length _ _
  have hL2 : roundUpEven (params.shard_len payload.length + 4) % 2 = 0 :=
    roundUpEven_even _
  have hL0 : 0 < roundUpEven (params.shard_len payload.length + 4) :=
    lt_of_lt_of_le (by omega) (roundUpEven_ge _)
  refine ⟨?_, hL2⟩
  rw [List.eq_replicate_iff]
  constructor
  · rw [List.length_map, (hkeep _ _ _ hmslen hd1).1]
    omega
  · intro b hb
    obtain ⟨s, hsmem, rfl⟩ := List.mem_map.mp hb
    exact huni params.data_shards params.parity_shards _ _ hmslen hd1 hL2 hL0
      (make_shards_uniform params payload) s hsmem

theorem claim_C3_uniform_even_witness :
    [[1, 0, 0, 0, 7, 0], [1, 0, 0, 0, 7, 0], [1, 0, 0, 0, 7, 0]].map
        List.length =
      List.replicate 3 (roundUpEven (CodeParams.shard_len ⟨1, 2⟩ 1 + 4)) ∧
      roundUpEven (CodeParams.shard_len ⟨1, 2⟩ 1 + 4) % 2 = 0 :=
  claim_C3_uniform_even modelCodec 3 [7] _ ⟨1, 2⟩ rfl modelCodec_keepsData
    modelCodec_uniformLen (by decide) rfl

/-! ### Claim C8: oversized length prefix -/

theorem unframe_oversized (s : List Nat) (h4 : 4 ≤ s.length)
    (hbig : s.length - 4 < decodeU32 (s.take 4)) : unframeShard s = none := by
  unfold unframeShard
  rw [if_neg (by omega)]
  rw [if_pos (by rw [List.length_drop]; omega)]

/-- C8 counterexample: a reconstruction in which the recovered data shard 0
has a length prefix `99 > L - 4 = 2` succeeds — the oversized shard is
silently skipped and the remaining stream still deserializes — instead of
failing with `BadPayload` as the claim states. -/
theorem claim_C8_badpayload_cx :
    reconstruct lenByteDec modelCodec 4
        [([99, 0, 0, 0, 0, 0], 0), ([2, 0, 0, 0, 1, 5], 1),
          ([0, 0, 0, 0, 0, 0], 2), ([0, 0, 0, 0, 0, 0], 3)] = .ok [5] ∧
      6 - 4 < decodeU32 (List.take 4 [99, 0, 0, 0, 0, 0]) := ⟨rfl, by decide⟩

/-- C8 (amended): a recovered data shard whose 4-byte length prefix decodes to
`len > L − 4` is silently skipped during unframing (it contributes no bytes to
the stream) rather than failing immediately; `reconstruct` fails with
`BadPayload` only when the resulting stream then fails to deserialize — for
example when every data shard is oversized and the deserializer rejects the
empty stream. -/
theorem claim_C8_skip :
    (∀ s : List Nat, 4 ≤ s.length → s.length - 4 < decodeU32 (s.take 4) →
      unframeShard s = none) ∧
    (∀ {α : Type} (dec : List Nat → Option (α × List Nat)) (c : RSCodec)
      (n L : Nat) (shard : Nat → List Nat) (params : CodeParams),
      ReconstructAllPresent c →
      code_params n = .ok params →
      L % 2 = 0 → 4 ≤ L →
      (∀ i, i < n → (shard i).length = L) →
      (∀ i, i < params.data_shards → L - 4 < decodeU32 ((shard i).take 4)) →
      dec [] = none →
      reconstruct dec c n ((List.range n).map (fun i => (shard i, i))) =
        .error Error.BadPayload) := by
  constructor
  · exact unframe_oversized
  · intro α dec c n L shard params hall hpar hL2 hL4 hlen hbig hdec
    obtain ⟨hn1, hn2, hdps, hpps, hd1, hdn, hsum⟩ := code_params_inv hpar
    have hinlen : ((List.range n).map (fun i => (shard i, i))).length = n := by
      rw [List.length_map, List.length_range]
    have htk : ((List.range n).map (fun i => (shard i, i))).take n =
        (List.range n).map (fun i => (shard i, i)) :=
      List.take_of_length_le (le_of_eq hinlen)
    have hfill0 : ∀ pr ∈ (List.range n).map (fun i => (shard i, i)),
        pr.2 < n ∧ pr.1.length = L := by
      intro pr hpr
      obtain ⟨i, hir, rfl⟩ := List.mem_map.mp hpr
      have hi : i < n := List.mem_range.mp hir
      exact ⟨hi, hlen i hi⟩
    have hfill := fillShards_ok n L ((List.range n).map (fun i => (shard i, i)))
      (List.replicate n none) none hfill0 hL2 (by omega) (Or.inl rfl)
    set folded := ((List.range n).map (fun i => (shard i, i))).foldl
      (fun sh pr => sh.set pr.2 (some pr.1)) (List.replicate n none)
      with hfolded
    have hfill2 : fillShards n (List.replicate n none) none
        (((List.range n).map (fun i => (shard i, i))).take n) = .ok folded := by
      rw [htk]
      exact hfill
    have hflen : folded.length = n := by
      rw [hfolded, foldl_set_length, List.length_replicate]
    have hgetD : ∀ j, j < n → folded.getD j none = some (shard j) := by
      intro j hj
      rw [hfolded, foldl_set_getD shard (List.range n) (List.replicate n none) j
        (by rw [List.length_replicate]; exact hj)]
      rw [if_pos (List.mem_range.mpr hj)]
    have hallSome : ∀ h ∈ folded, h.isSome := by
      intro o ho
      obtain ⟨j, hj, hjo⟩ := List.mem_iff_getElem.mp ho
      have hj2 : j < n := by omega
      have := hgetD j hj2
      rw [List.getD_eq_getElem _ _ hj, hjo] at this
      rw [this]
      rfl
    have happly := hall params.data_shards params.parity_shards folded
      (by omega) hd1 hallSome
    have hrecovered : folded.map (fun o => o.getD []) =
        (List.range n).map shard := by
      apply List.ext_getElem
      · rw [List.length_map, List.length_map, List.length_range, hflen]
      · intro j h1 h2
        rw [List.getElem_map, List.getElem_map, List.getElem_range]
        have hj2 : j < n := by
          rw [List.length_map, List.length_range] at h2
          exact h2
        have hgd := hgetD j hj2
        rw [List.getD_eq_getElem _ _ (by omega : j < folded.length)] at hgd
        rw [hgd]
        rfl
    have hfm : (((List.range n).map shard).take params.data_shards).filterMap
        unframeShard = [] := by
      rw [map_range_take shard params.data_shards n hdn]
      rw [List.filterMap_eq_nil_iff]
      intro x hx
      obtain ⟨j, hjr, rfl⟩ := List.mem_map.mp hx
      have hj : j < params.data_shards := List.mem_range.mp hjr
      apply unframe_oversized
      · rw [hlen j (by omega)]
        exact hL4
      · rw [hlen j (by omega)]
        exact hbig j hj
    rw [reconstruct_eq dec c n _ params folded hpar hfill2]
    rw [happly]
    show (match dec (((((folded.map (fun o => o.getD []))).take
        params.data_shards).filterMap unframeShard).flatten) with
      | some pr => Except.ok pr.1
      | none => .error Error.BadPayload) = .error Error.BadPayload
    rw [hrecovered, hfm]
    show (match dec [] with
      | some pr => Except.ok pr.1
      | none => .error Error.BadPayload) = .error Error.BadPayload
    rw [hdec]

theorem claim_C8_skip_witness :
    unframeShard [99, 0, 0, 0, 0, 0] = none ∧
      reconstruct (fun _ => (none : Option (List Nat × List Nat))) modelCodec 1
        ((List.range 1).map (fun i => ([99, 0, 0, 0, 0, 0], i))) =
        .error Error.BadPayload :=
  ⟨claim_C8_skip.1 [99, 0, 0, 0, 0, 0] (by decide) (by decide),
    claim_C8_skip.2 (fun _ => none) modelCodec 1 6
      (fun _ => [99, 0, 0, 0, 0, 0]) ⟨1, 0⟩ modelCodec_allPresent rfl
      (by decide) (by decide) (fun _ _ => rfl)
      (fun _ _ => by
        show 6 - 4 < decodeU32 (List.take 4 [99, 0, 0, 0, 0, 0])
        decide)
      rfl⟩

/-! ### Claim C1: round-trip -/

/-- C1: for every valid validator count `n` and valid serialized pair (an
abstract value `a` with prefix codec `enc`/`dec`), if `obtain_chunks`
succeeds, then reconstruction from the chunks of any index subset `S` with
`|S| ≥ data_shards` returns exactly the original value. -/
theorem claim_C1_roundtrip {α : Type} (enc : α → List Nat)
    (dec : List Nat → Option (α × List Nat)) (c : RSCodec) (n : Nat) (a : α)
    (params : CodeParams) (chunks : List (List Nat)) (S : List Nat)
    (hpar : code_params n = .ok params)
    (hp : enc a ≠ []) (hp32 : (enc a).length < 4294967296)
    (hdec : dec (enc a) = some (a, []))
    (hkeep : EncodeKeepsData c) (huni : EncodeUniformLen c)
    (hmds : MdsAt c params.data_shards params.parity_shards)
    (hchunks : obtain_chunks c n (enc a) = .ok chunks)
    (hnd : S.Nodup) (hSb : ∀ i ∈ S, i < n)
    (hSd : params.data_shards ≤ S.length) :
    reconstruct dec c n (S.map (fun i => (chunks.getD i [], i))) = .ok a := by
  obtain ⟨hn1, hn2, hdps, hpps, hd1, hdn, hsum⟩ := code_params_inv hpar
  have hplen0 : (enc a).length ≠ 0 := fun h =>
    hp (List.eq_nil_of_length_eq_zero h)
  rw [obtain_chunks_eq c n (enc a) params hpar hplen0] at hchunks
  injection hchunks with hchunks
  subst hchunks
  have hmslen : (params.make_shards_for (enc a)).length =
      params.data_shards + params.parity_shards := make_shards_length _ _
  have hL2 : roundUpEven (params.shard_len (enc a).length + 4) % 2 = 0 :=
    roundUpEven_even _
  have hL0 : 0 < roundUpEven (params.shard_len (enc a).length + 4) :=
    lt_of_lt_of_le (by omega) (roundUpEven_ge _)
  have hmsuni := make_shards_uniform params (enc a)
  have hkd := hkeep params.data_shards params.parity_shards _ hmslen hd1
  have hcwlen : (c.rsEncode params.data_shards params.parity_shards
      (params.make_shards_for (enc a))).length = n := by
    rw [hkd.1]
    omega
  have hcwuni : ∀ s ∈ c.rsEncode params.data_shards params.parity_shards
      (params.make_shards_for (enc a)),
      s.length = roundUpEven (params.shard_len (enc a).length + 4) :=
    huni _ _ _ _ hmslen hd1 hL2 hL0 hmsuni
  have hmem : ∀ i, i < n →
      (c.rsEncode params.data_shards params.parity_shards
        (params.make_shards_for (enc a))).getD i [] ∈
        c.rsEncode params.data_shards params.parity_shards
          (params.make_shards_for (enc a)) := by
    intro i hi
    rw [List.getD_eq_getElem _ _ (by omega)]
    exact List.getElem_mem _
  have hSn : S.length ≤ n := nodup_length_le_of_lt S n hnd hSb
  have hfill0 : ∀ pr ∈ S.map (fun i =>
      ((c.rsEncode params.data_shards params.parity_shards
        (params.make_shards_for (enc a))).getD i [], i)),
      pr.2 < n ∧ pr.1.length =
        roundUpEven (params.shard_len (enc a).length + 4) := by
    intro pr hpr
    obtain ⟨i, hiS, rfl⟩ := List.mem_map.mp hpr
    exact ⟨hSb i hiS, hcwuni _ (hmem i (hSb i hiS))⟩
  have hfill := fillShards_ok n
    (roundUpEven (params.shard_len (enc a).length + 4))
    (S.map (fun i =>
      ((c.rsEncode params.data_shards params.parity_shards
        (params.make_shards_for (enc a))).getD i [], i)))
    (List.replicate n none) none hfill0 hL2 (by omega) (Or.inl rfl)
  have htk : (S.map (fun i =>
      ((c.rsEncode params.data_shards params.parity_shards
        (params.make_shards_for (enc a))).getD i [], i))).take n =
      S.map (fun i =>
        ((c.rsEncode params.data_shards params.parity_shards
          (params.make_shards_for (enc a))).getD i [], i)) :=
    List.take_of_length_le (by rw [List.length_map]; exact hSn)
  have hfill2 : fillShards n (List.replicate n none) none
      ((S.map (fun i =>
        ((c.rsEncode params.data_shards params.parity_shards
          (params.make_shards_for (enc a))).getD i [], i))).take n) =
      .ok ((S.map (fun i =>
        ((c.rsEncode params.data_shards params.parity_shards
          (params.make_shards_for (enc a))).getD i [], i))).foldl
        (fun sh pr => sh.set pr.2 (some pr.1)) (List.replicate n none)) := by
    rw [htk]
    exact hfill
  have hflen : ((S.map (fun i =>
      ((c.rsEncode params.data_shards params.parity_shards
        (params.make_shards_for (enc a))).getD i [], i))).foldl
      (fun sh pr => sh.set pr.2 (some pr.1))
      (List.replicate n none)).length = n := by
    rw [foldl_set_length, List.length_replicate]
  have hgd : ∀ j, j < n → ((S.map (fun i =>
      ((c.rsEncode params.data_shards params.parity_shards
        (params.make_shards_for (enc a))).getD i [], i))).foldl
      (fun sh pr => sh.set pr.2 (some pr.1))
      (List.replicate n none)).getD j none =
      if j ∈ S then
        some ((c.rsEncode params.data_shards params.parity_shards
          (params.make_shards_for (enc a))).getD j [])
      else none := by
    intro j hj
    rw [foldl_set_getD
      (fun i => (c.rsEncode params.data_shards params.parity_shards
        (params.make_shards_for (enc a))).getD i []) S
      (List.replicate n none) j (by rw [List.length_replicate]; exact hj)]
    by_cases hjS : j ∈ S
    · rw [if_pos hjS, if_pos hjS]
    · rw [if_neg hjS, if_neg hjS, replicate_none_getD]
  have hera : ErasureOf ((S.map (fun i =>
      ((c.rsEncode params.data_shards params.parity_shards
        (params.make_shards_for (enc a))).getD i [], i))).foldl
      (fun sh pr => sh.set pr.2 (some pr.1)) (List.replicate n none))
      (c.rsEncode params.data_shards params.parity_shards
        (params.make_shards_for (enc a))) := by
    refine ⟨by rw [hflen, hcwlen], ?_⟩
    intro i hi
    have hi2 : i < n := by rw [hflen] at hi; exact hi
    rw [hgd i hi2]
    by_cases hiS : i ∈ S
    · rw [if_pos hiS]
      exact Or.inr rfl
    · rw [if_neg hiS]
      exact Or.inl rfl
  have hpres : params.data_shards ≤ presentCount ((S.map (fun i =>
      ((c.rsEncode params.data_shards params.parity_shards
        (params.make_shards_for (enc a))).getD i [], i))).foldl
      (fun sh pr => sh.set pr.2 (some pr.1)) (List.replicate n none)) := by
    rw [presentCount_eq_countP]
    rw [presentCount_foldl_nodup
      (fun i => (c.rsEncode params.data_shards params.parity_shards
        (params.make_shards_for (enc a))).getD i []) S
      (List.replicate n none) hnd
      (fun i hiS => ⟨by rw [List.length_replicate]; exact hSb i hiS,
        replicate_none_getD n i⟩)]
    rw [replicate_none_countP]
    omega
  have hrs := hmds (params.make_shards_for (enc a))
    (roundUpEven (params.shard_len (enc a).length + 4))
    ((S.map (fun i =>
      ((c.rsEncode params.data_shards params.parity_shards
        (params.make_shards_for (enc a))).getD i [], i))).foldl
      (fun sh pr => sh.set pr.2 (some pr.1)) (List.replicate n none))
    hmslen hd1 hL2 hL0 hmsuni hera hpres
  rw [reconstruct_eq dec c n _ params _ hpar hfill2]
  rw [hrs]
  show (match dec ((((c.rsEncode params.data_shards params.parity_shards
      (params.make_shards_for (enc a))).take params.data_shards).filterMap
      unframeShard).flatten) with
    | some pr => Except.ok pr.1
    | none => .error Error.BadPayload) = .ok a
  rw [hkd.2]
  rw [data_stream_eq params (enc a) hd1 hp hp32]
  rw [hdec]

theorem claim_C1_roundtrip_witness :
    ([2] : List Nat).Nodup ∧
      reconstruct (fun l => some (l, ([] : List Nat))) modelCodec 3
        (([2] : List Nat).map (fun i =>
          ([[1, 0, 0, 0, 7, 0], [1, 0, 0, 0, 7, 0],
            [1, 0, 0, 0, 7, 0]].getD i [], i))) = .ok [7] :=
  ⟨by decide,
    claim_C1_roundtrip (fun l => l) (fun l => some (l, [])) modelCodec 3 [7]
      ⟨1, 2⟩ [[1, 0, 0, 0, 7, 0], [1, 0, 0, 0, 7, 0], [1, 0, 0, 0, 7, 0]] [2]
      rfl (by decide) (by decide) rfl modelCodec_keepsData
      modelCodec_uniformLen (modelCodec_mds_d1 2) rfl (by decide)
      (by decide) (by decide)⟩

/-! ### Merkle commitment (spec-modelled trie engine) -/

theorem trieInsert_fresh (nd : TrieNode) (k v : List Nat)
    (hfresh : ∀ pr ∈ nd, pr.1 ≠ k) : trieInsert nd k v = nd ++ [(k, v)] := by
  unfold trieInsert
  rw [if_neg]
  simp only [List.any_eq_true, beq_iff_eq, not_exists]
  intro pr hpr
  exact hfresh pr hpr.1 hpr.2

theorem trieLookup_cons (k0 v0 : List Nat) (tl : TrieNode) (key : List Nat) :
    trieLookup ((k0, v0) :: tl) key =
      if k0 == key then some v0 else trieLookup tl key := by
  unfold trieLookup
  rw [List.find?_cons]
  by_cases hk : (k0 == key) = true
  · simp [hk]
  · simp [hk]

theorem buildTrieAux_eq (h : List Nat → List Nat) :
    ∀ (cs : List (List Nat)) (i : Nat) (nd : TrieNode),
      i + cs.length ≤ 4294967296 →
      (∀ pr ∈ nd, ∀ j, i ≤ j → j < i + cs.length → pr.1 ≠ lenEncU32 j) →
      buildTrieAux h i cs nd = nd ++ trieOf h i cs := by
  intro cs
  induction cs with
  | nil =>
    intro i nd _ _
    simp [buildTrieAux, trieOf]
  | cons chunk rest ih =>
    intro i nd hbound hfresh
    rw [List.length_cons] at hbound
    unfold buildTrieAux
    rw [trieInsert_fresh nd (lenEncU32 i) (h chunk)
      (fun pr hpr =>
        hfresh pr hpr i (le_refl i) (by rw [List.length_cons]; omega))]
    rw [ih (i + 1) (nd ++ [(lenEncU32 i, h chunk)]) (by omega) ?fresh2]
    · rw [List.append_assoc]
      rfl
    case fresh2 =>
      intro pr hpr j hj1 hj2
      rcases List.mem_append.mp hpr with hmem | hmem
      · exact hfresh pr hmem j (by omega) (by rw [List.length_cons]; omega)
      · have hpr2 : pr = (lenEncU32 i, h chunk) := List.mem_singleton.mp hmem
        rw [hpr2]
        intro heq
        have := lenEncU32_inj (by omega) (by omega) heq
        omega

theorem buildTrie_eq (h : List Nat → List Nat) (chunks : List (List Nat))
    (hn : chunks.length ≤ 4294967296) :
    buildTrie h chunks = trieOf h 0 chunks := by
  unfold buildTrie
  rw [buildTrieAux_eq h chunks 0 [] (by omega)
    (by intro pr hpr; simp at hpr)]
  rw [List.nil_append]

theorem trieOf_lookup_mem (h : List Nat → List Nat) :
    ∀ (cs : List (List Nat)) (i j : Nat), i ≤ j → j < i + cs.length →
      i + cs.length ≤ 4294967296 →
      trieLookup (trieOf h i cs) (lenEncU32 j) =
        some (h (cs.getD (j - i) [])) := by
  intro cs
  induction cs with
  | nil =>
    intro i j h1 h2 _
    rw [List.length_nil] at h2
    omega
  | cons chunk rest ih =>
    intro i j h1 h2 hb
    rw [List.length_cons] at h2 hb
    unfold trieOf
    rw [trieLookup_cons]
    by_cases hij : j = i
    · subst hij
      rw [if_pos (beq_self_eq_true _)]
      rw [Nat.sub_self]
      rfl
    · rw [if_neg (by
        simp only [beq_iff_eq]
        intro heq
        exact hij (lenEncU32_inj (by omega) (by omega) heq).symm)]
      rw [ih (i + 1) j (by omega) (by omega) (by omega)]
      have hidx : j - i = (j - (i + 1)) + 1 := by omega
      rw [hidx, List.getD_cons_succ]

theorem trieOf_lookup_none (h : List Nat → List Nat) :
    ∀ (cs : List (List Nat)) (i j : Nat), (j < i ∨ i + cs.length ≤ j) →
      j < 4294967296 → i + cs.length ≤ 4294967296 →
      trieLookup (trieOf h i cs) (lenEncU32 j) = none := by
  intro cs
  induction cs with
  | nil =>
    intro i j _ _ _
    rfl
  | cons chunk rest ih =>
    intro i j hout hj hb
    rw [List.length_cons] at hout hb
    unfold trieOf
    rw [trieLookup_cons]
    rw [if_neg (by
      simp only [beq_iff_eq]
      intro heq
      have := lenEncU32_inj (by omega) hj heq
      omega)]
    exact ih (i + 1) j (by omega) hj (by omega)

/-- C4: for the root and proofs produced by `branches` over a chunk list,
verifying the `i`-th proof at index `i` succeeds and returns exactly the
32-byte hash of chunk `i`. -/
theorem claim_C4_branch (hashNode : TrieNode → List Nat)
    (hashChunk : List Nat → List Nat) (chunks : List (List Nat)) (i : Nat)
    (hn : chunks.length ≤ 65536) (hi : i < chunks.length)
    (hlen : ∀ b, (hashChunk b).length = 32) :
    branch_hash hashNode (branchesRoot hashNode hashChunk chunks)
      (branchesProof hashChunk chunks i) i =
      .ok (hashChunk (chunks.getD i [])) := by
  unfold branch_hash branchesRoot branchesProof
  have hfind : List.find?
      (fun nd => hashNode nd == hashNode (buildTrie hashChunk chunks))
      [buildTrie hashChunk chunks] = some (buildTrie hashChunk chunks) := by
    rw [List.find?_cons]
    simp
  rw [hfind]
  have hlook : trieLookup (buildTrie hashChunk chunks) (lenEncU32 i) =
      some (hashChunk (chunks.getD i [])) := by
    rw [buildTrie_eq hashChunk chunks (by omega)]
    have := trieOf_lookup_mem hashChunk chunks 0 i (Nat.zero_le i)
      (by omega) (by omega)
    rw [Nat.sub_zero] at this
    exact this
  show (match trieLookup (buildTrie hashChunk chunks) (lenEncU32 i) with
    | none => Except.error Error.BranchOutOfBounds
    | some v => if v.length < 32 then Except.error Error.InvalidBranchProof
      else Except.ok (List.take 32 v)) = _
  rw [hlook]
  show (if (hashChunk (chunks.getD i [])).length < 32 then
      Except.error Error.InvalidBranchProof
    else .ok ((hashChunk (chunks.getD i [])).take 32)) = _
  rw [if_neg (by rw [hlen]; omega)]
  rw [List.take_of_length_le (le_of_eq (hlen _))]

theorem claim_C4_branch_witness :
    branch_hash (fun _ => [1])
        (branchesRoot (fun _ => [1]) (fun _ => List.replicate 32 5) [[9], [8]])
        (branchesProof (fun _ => List.replicate 32 5) [[9], [8]] 1) 1 =
      .ok (List.replicate 32 5) :=
  claim_C4_branch (fun _ => [1]) (fun _ => List.replicate 32 5) [[9], [8]] 1
    (by decide) (by decide) (fun b => by simp)

/-- C9: for a root and proofs produced by `branches` over `n` chunks,
verifying `proofs[0]` at the never-inserted index `n` completes the lookup
without finding a value and fails with `BranchOutOfBounds`, not
`InvalidBranchProof`. -/
theorem claim_C9_out_of_bounds (hashNode : TrieNode → List Nat)
    (hashChunk : List Nat → List Nat) (chunks : List (List Nat))
    (hne : chunks ≠ []) (hn : chunks.length ≤ 65536) :
    branch_hash hashNode (branchesRoot hashNode hashChunk chunks)
      (branchesProof hashChunk chunks 0) chunks.length =
      .error Error.BranchOutOfBounds := by
  have hne2 : 0 < chunks.length := List.length_pos_of_ne_nil hne
  unfold branch_hash branchesRoot branchesProof
  have hfind : List.find?
      (fun nd => hashNode nd == hashNode (buildTrie hashChunk chunks))
      [buildTrie hashChunk chunks] = some (buildTrie hashChunk chunks) := by
    rw [List.find?_cons]
    simp
  rw [hfind]
  have hlook : trieLookup (buildTrie hashChunk chunks)
      (lenEncU32 chunks.length) = none := by
    rw [buildTrie_eq hashChunk chunks (by omega)]
    exact trieOf_lookup_none hashChunk chunks 0 chunks.length
      (Or.inr (by omega)) (by omega) (by omega)
  show (match trieLookup (buildTrie hashChunk chunks)
      (lenEncU32 chunks.length) with
    | none => Except.error Error.BranchOutOfBounds
    | some v => if v.length < 32 then Except.error Error.InvalidBranchProof
      else Except.ok (List.take 32 v)) = _
  rw [hlook]

theorem claim_C9_out_of_bounds_witness :
    branch_hash (fun _ => [1])
        (branchesRoot (fun _ => [1]) (fun _ => List.replicate 32 5) [[9], [8]])
        (branchesProof (fun _ => List.replicate 32 5) [[9], [8]] 0) 2 =
      .error Error.BranchOutOfBounds :=
  claim_C9_out_of_bounds (fun _ => [1]) (fun _ => List.replicate 32 5)
    [[9], [8]] (by decide) (by decide)
